import Mathlib

/-!
Shallow embedding of the hybrid retrieval and reranking pipeline of the
nexus-rag backend (files `app/services/hybrid_search.py`,
`app/services/reranker.py`, `app/api/reranking_routes.py`).

Python floats are modelled as rationals; Python dicts over string keys are
modelled as structures (a possibly missing entry becomes an `Option`), the
insertion-ordered `results_dict` of `_combine_results` becomes an ordered
list of entries keyed by their `text` field, and a `KeyError` raised by a
subscript access is modelled with `Except String`.
-/

/-- A formatted dense-search result as produced by
`QdrantClient.search` (qdrant_client.py lines 144-154): the `text` entry
of the dict is `payload.get("text")`, so it may be missing, which the
field models with `Option`. Metadata is an insertion-ordered mapping from
string keys to string values. -/
structure VectorResult where
  chunk_id : Option String
  document_id : Option String
  text : Option String
  score : ℚ
  metadata : List (String × String)
deriving DecidableEq, Repr

/-- A BM25 result dict as built by `hybrid_search` (hybrid_search.py
lines 101-107). -/
structure BM25Result where
  text : String
  metadata : List (String × String)
  bm25_score : ℚ
deriving DecidableEq, Repr

/-- A merged candidate entry of `results_dict` in `_combine_results`
(hybrid_search.py lines 162-201); `hybrid_score` is filled in by the
final loop, and `cross_encoder_score` is absent until the reranker adds
it. -/
structure Combined where
  text : String
  chunk_id : Option String
  document_id : Option String
  metadata : List (String × String)
  vector_score : ℚ
  bm25_score : ℚ
  hybrid_score : ℚ := 0
  cross_encoder_score : Option ℚ := none
deriving DecidableEq, Repr

/-- Lookup in an insertion-ordered string-keyed mapping, the model of
Python `dict.get`. -/
def metaLookup (m : List (String × String)) (k : String) : Option String :=
  (m.find? (fun p => p.1 = k)).map (fun p => p.2)

/-- Normalized vector scores, positionally matching the input list:
min-max scaling of `r["score"]` over the batch, all 1.0 when the range is
zero (hybrid_search.py lines 136-149). Empty input gets no scores. -/
def normalizedVectorScores : List VectorResult → List ℚ
  | [] => []
  | v :: rest =>
    let maxS := rest.foldl (fun a r => max a r.score) v.score
    let minS := rest.foldl (fun a r => min a r.score) v.score
    let range := maxS - minS
    if 0 < range then (v :: rest).map (fun r => (r.score - minS) / range)
    else (v :: rest).map (fun _ => 1)

/-- Normalized BM25 scores, positionally matching the input list: scaling
by the batch maximum, all 0.0 when the maximum is not positive
(hybrid_search.py lines 151-160). -/
def normalizedBm25Scores : List BM25Result → List ℚ
  | [] => []
  | b :: rest =>
    let maxS := rest.foldl (fun a r => max a r.bm25_score) b.bm25_score
    if 0 < maxS then (b :: rest).map (fun r => r.bm25_score / maxS)
    else (b :: rest).map (fun _ => 0)

/-- Membership test of a text key in the ordered model of `results_dict`. -/
def dictContains (d : List Combined) (t : String) : Bool :=
  d.any (fun e => e.text = t)

/-- Update `results_dict[text]["bm25_score"]` in the ordered model. -/
def dictSetBm25 (d : List Combined) (t : String) (s : ℚ) : List Combined :=
  d.map (fun e => if e.text = t then { e with bm25_score := s } else e)

/-- The vector half of the combine loop (hybrid_search.py lines 165-176):
each result, paired with its normalized score, is inserted under its
`text` key if that key is absent; `r["text"]` on a result without the
entry raises `KeyError`. -/
def addVectorResults : List (VectorResult × ℚ) → List Combined →
    Except String (List Combined)
  | [], d => .ok d
  | (r, ns) :: rest, d =>
    match r.text with
    | none => .error "KeyError: text"
    | some t =>
      let d' := if dictContains d t then d
        else d ++ [{ text := t, chunk_id := r.chunk_id,
                     document_id := r.document_id, metadata := r.metadata,
                     vector_score := ns, bm25_score := 0 }]
      addVectorResults rest d'

/-- The BM25 half of the combine loop (hybrid_search.py lines 178-191):
an existing entry only gets its `bm25_score` replaced, a new entry gets
`chunk_id = None`, `document_id` from the metadata, and `vector_score`
0.0. -/
def addBm25Results : List (BM25Result × ℚ) → List Combined → List Combined
  | [], d => d
  | (r, ns) :: rest, d =>
    let d' := if dictContains d r.text then dictSetBm25 d r.text ns
      else d ++ [{ text := r.text, chunk_id := none,
                   document_id := metaLookup r.metadata "document_id",
                   metadata := r.metadata, vector_score := 0,
                   bm25_score := ns }]
    addBm25Results rest d'

/-- The final loop of `_combine_results` (hybrid_search.py lines
193-201), attaching the weighted hybrid score to an entry. -/
def attachHybrid (vw kw : ℚ) (e : Combined) : Combined :=
  { e with hybrid_score := e.vector_score * vw + e.bm25_score * kw }

/-- `_combine_results` (hybrid_search.py lines 126-203): normalize both
score lists, merge by text into the ordered dict, then attach the
weighted `hybrid_score` to every entry. -/
def combine_results (vector_results : List VectorResult)
    (bm25_results : List BM25Result) (vector_weight keyword_weight : ℚ) :
    Except String (List Combined) :=
  match addVectorResults
      (vector_results.zip (normalizedVectorScores vector_results)) [] with
  | .error e => .error e
  | .ok d =>
    let d := addBm25Results
      (bm25_results.zip (normalizedBm25Scores bm25_results)) d
    .ok (d.map (attachHybrid vector_weight keyword_weight))

/-- `_apply_filters` (hybrid_search.py lines 205-225): keep a result only
when every filter key matches its metadata exactly. -/
def apply_filters (results : List Combined)
    (filters : List (String × String)) : List Combined :=
  results.filter (fun r =>
    filters.all (fun p => metaLookup r.metadata p.1 = some p.2))

/-- The conditional filtering step of `hybrid_search` (hybrid_search.py
lines 117-119): filters are applied only when `metadata_filters` is
truthy, i.e. neither `None` nor an empty mapping. -/
def applyFiltersOpt (combined : List Combined)
    (metadata_filters : Option (List (String × String))) : List Combined :=
  match metadata_filters with
  | some (f :: fs) => apply_filters combined (f :: fs)
  | _ => combined

/-- The BM25 side of `HybridSearchService` state: `hasIndex` is the
truthiness of `self.bm25_index` (set by `index_for_bm25`, `None` before),
with the stored documents and their metadata (hybrid_search.py lines
33-35 and 49-51). -/
structure HybridState where
  hasIndex : Bool
  bm25_documents : List String
  bm25_metadata : List (List (String × String))
deriving Repr

/-- Which retrieval paths a call queried and with what candidate count:
`dense_requested` is the `top_k` passed to `qdrant.search`,
`lexical_requested` the truncation bound applied to the ranked BM25
indices; `none` means the path was never consulted. -/
structure SearchCall where
  dense_requested : Option Nat
  lexical_requested : Option Nat
deriving DecidableEq, Repr

/-- The sparse-retrieval step of `hybrid_search` (hybrid_search.py lines
88-107): when an index exists, rank all document indices by their BM25
score descending (stable), keep the first `top_k * 2`, and collect the
documents with strictly positive score. The per-document scores returned
by `BM25Okapi.get_scores` for the query are an oracle parameter. -/
def bm25Retrieve (st : HybridState) (bm25_scores : List ℚ) (top_k : Nat) :
    List BM25Result :=
  if st.hasIndex then
    let top_indices := ((List.range bm25_scores.length).mergeSort
        (fun i j => decide (bm25_scores.getD j 0 ≤ bm25_scores.getD i 0))).take
      (top_k * 2)
    top_indices.foldl (fun acc idx =>
      if 0 < bm25_scores.getD idx 0 then
        acc ++ [{ text := st.bm25_documents.getD idx "",
                  metadata := st.bm25_metadata.getD idx [],
                  bm25_score := bm25_scores.getD idx 0 }]
      else acc) []
  else []

/-- `hybrid_search` (hybrid_search.py lines 53-124). Renormalizing the
weights divides by their sum, which raises `ZeroDivisionError` when the
sum is zero, before either retrieval path runs. Dense retrieval is an
oracle from the requested candidate count to a result list; the returned
`SearchCall` records what each path was asked for. -/
def hybrid_search (st : HybridState)
    (denseSearch : Nat → List VectorResult) (bm25_scores : List ℚ)
    (top_k : Nat) (keyword_weight vector_weight : ℚ)
    (metadata_filters : Option (List (String × String))) :
    Except String (List Combined) × SearchCall :=
  let total_weight := keyword_weight + vector_weight
  if total_weight = 0 then (.error "ZeroDivisionError", ⟨none, none⟩)
  else
    let kw := keyword_weight / total_weight
    let vw := vector_weight / total_weight
    let vector_results := denseSearch (top_k * 2)
    let bm25_results := bm25Retrieve st bm25_scores top_k
    let trace : SearchCall :=
      ⟨some (top_k * 2), if st.hasIndex then some (top_k * 2) else none⟩
    match combine_results vector_results bm25_results vw kw with
    | .error e => (.error e, trace)
    | .ok combined =>
      let filtered := applyFiltersOpt combined metadata_filters
      let sorted := filtered.mergeSort
        (fun a b => decide (b.hybrid_score ≤ a.hybrid_score))
      (.ok (sorted.take top_k), trace)

/-- `CrossEncoderReranker` instance state (reranker.py lines 44-47):
`tokenizer` and `model` hold the name of the loaded resource, `none`
while unloaded. -/
structure CrossEncoderReranker where
  model_name : String
  tokenizer : Option String
  model : Option String
  device : String
deriving DecidableEq, Repr

/-- `_lazy_load` (reranker.py lines 50-60): load tokenizer and model when
the model is not yet loaded. -/
def lazy_load (r : CrossEncoderReranker) : CrossEncoderReranker :=
  if r.model = none then
    { r with tokenizer := some r.model_name, model := some r.model_name }
  else r

/-- `CrossEncoderReranker.__init__` (reranker.py lines 37-48): set the
fields and then call `_lazy_load`. -/
def CrossEncoderReranker.init (model_name : String)
    (cuda_available : Bool) : CrossEncoderReranker :=
  lazy_load { model_name, tokenizer := none, model := none,
              device := if cuda_available then "cuda" else "cpu" }

/-- `CrossEncoderReranker.rerank` (reranker.py lines 62-100). The
cross-encoder scoring model is an oracle from document text to score; the
first component of the value is the input list after the in-place
mutation that writes `cross_encoder_score` onto every record, the second
is the returned reranked prefix. -/
def rerank (ceScore : String → ℚ) (results : List Combined)
    (top_k : Nat) : List Combined × List Combined :=
  match results with
  | [] => ([], [])
  | _ =>
    let scored := results.map (fun r =>
      { r with cross_encoder_score := some (ceScore r.text) })
    let reranked := scored.mergeSort (fun a b =>
      decide (b.cross_encoder_score.getD 0 ≤ a.cross_encoder_score.getD 0))
    (scored, reranked.take top_k)

/-- A `RerankedSearchRequest` (schemas.py lines 192-201). -/
structure RerankedRequest where
  top_k : Nat
  candidates_multiplier : Nat
  keyword_weight : ℚ
  vector_weight : ℚ
  use_reranker : Bool
  metadata_filters : Option (List (String × String))
deriving Repr

/-- The `reranked_search` route body (reranking_routes.py lines 64-93):
compute `num_candidates = top_k * candidates_multiplier`, run hybrid
search asking for that many results, then either rerank down to `top_k`
or truncate to `top_k` directly. -/
def reranked_search (st : HybridState)
    (denseSearch : Nat → List VectorResult) (bm25_scores : List ℚ)
    (ceScore : String → ℚ) (req : RerankedRequest) :
    Except String (List Combined) × SearchCall :=
  let num_candidates := req.top_k * req.candidates_multiplier
  match hybrid_search st denseSearch bm25_scores num_candidates
      req.keyword_weight req.vector_weight req.metadata_filters with
  | (.error e, tr) => (.error e, tr)
  | (.ok results, tr) =>
    if req.use_reranker ∧ 0 < results.length then
      (.ok (rerank ceScore results req.top_k).2, tr)
    else
      (.ok (results.take req.top_k), tr)

example : normalizedVectorScores
    [⟨none, none, some "a", 2, []⟩, ⟨none, none, some "b", 1, []⟩] =
    [1, 0] := by norm_num [normalizedVectorScores]

example : normalizedBm25Scores [⟨"a", [], 5⟩, ⟨"b", [], 5⟩] = [1, 1] := by
  norm_num [normalizedBm25Scores]

lemma foldl_max_init_le (l : List ℚ) : ∀ x : ℚ, x ≤ l.foldl max x := by
  induction l with
  | nil => intro x; exact le_refl x
  | cons a l ih =>
    intro x
    exact le_trans (le_max_left x a) (ih (max x a))

lemma le_foldl_max_of_mem {a : ℚ} (l : List ℚ) :
    ∀ x : ℚ, a ∈ l → a ≤ l.foldl max x := by
  induction l with
  | nil => intro x h; exact absurd h (List.not_mem_nil a)
  | cons b l ih =>
    intro x h
    rcases List.mem_cons.mp h with h | h
    · subst h
      exact le_trans (le_max_right x a) (foldl_max_init_le l (max x a))
    · exact ih (max x b) h

lemma foldl_max_eq_init_or_mem (l : List ℚ) :
    ∀ x : ℚ, l.foldl max x = x ∨ l.foldl max x ∈ l := by
  induction l with
  | nil => intro x; left; rfl
  | cons b l ih =>
    intro x
    rcases ih (max x b) with h | h
    · rcases max_choice x b with h2 | h2
      · left; rw [List.foldl_cons, h, h2]
      · right; rw [List.foldl_cons, h, h2]; exact List.mem_cons_self b l
    · right; exact List.mem_cons_of_mem b h

lemma foldl_min_le_init (l : List ℚ) : ∀ x : ℚ, l.foldl min x ≤ x := by
  induction l with
  | nil => intro x; exact le_refl x
  | cons a l ih =>
    intro x
    exact le_trans (ih (min x a)) (min_le_left x a)

lemma foldl_min_le_of_mem {a : ℚ} (l : List ℚ) :
    ∀ x : ℚ, a ∈ l → l.foldl min x ≤ a := by
  induction l with
  | nil => intro x h; exact absurd h (List.not_mem_nil a)
  | cons b l ih =>
    intro x h
    rcases List.mem_cons.mp h with h | h
    · subst h
      exact le_trans (foldl_min_le_init l (min x a)) (min_le_right x a)
    · exact ih (min x b) h

lemma foldl_min_eq_init_or_mem (l : List ℚ) :
    ∀ x : ℚ, l.foldl min x = x ∨ l.foldl min x ∈ l := by
  induction l with
  | nil => intro x; left; rfl
  | cons b l ih =>
    intro x
    rcases ih (min x b) with h | h
    · rcases min_choice x b with h2 | h2
      · left; rw [List.foldl_cons, h, h2]
      · right; rw [List.foldl_cons, h, h2]; exact List.mem_cons_self b l
    · right; exact List.mem_cons_of_mem b h

lemma length_normalizedVectorScores (vs : List VectorResult) :
    (normalizedVectorScores vs).length = vs.length := by
  cases vs with
  | nil => rfl
  | cons v rest =>
    rw [normalizedVectorScores]
    split <;> rw [List.length_map]

lemma length_normalizedBm25Scores (bs : List BM25Result) :
    (normalizedBm25Scores bs).length = bs.length := by
  cases bs with
  | nil => rfl
  | cons b rest =>
    rw [normalizedBm25Scores]
    split <;> rw [List.length_map]

lemma mem_zip_left {α β : Type} {a : α} (l₁ : List α) (l₂ : List β)
    (hlen : l₁.length ≤ l₂.length) (ha : a ∈ l₁) :
    ∃ b, (a, b) ∈ l₁.zip l₂ := by
  induction l₁ generalizing l₂ with
  | nil => exact absurd ha (List.not_mem_nil a)
  | cons x xs ih =>
    cases l₂ with
    | nil => simp at hlen
    | cons y ys =>
      rcases List.mem_cons.mp ha with h | h
      · subst h
        exact ⟨y, List.mem_cons_self (a, y) (xs.zip ys)⟩
      · obtain ⟨b, hb⟩ := ih ys (Nat.le_of_succ_le_succ hlen) h
        exact ⟨b, List.mem_cons_of_mem (x, y) hb⟩

lemma dictContains_iff (d : List Combined) (t : String) :
    dictContains d t = true ↔ t ∈ d.map Combined.text := by
  simp [dictContains, List.any_eq_true, List.mem_map]

lemma av_error (l : List (VectorResult × ℚ)) :
    ∀ d : List Combined, (∃ p ∈ l, p.1.text = none) →
      addVectorResults l d = .error "KeyError: text" := by
  induction l with
  | nil => rintro d ⟨p, hp, -⟩; exact absurd hp (List.not_mem_nil p)
  | cons q rest ih =>
    rintro d ⟨p, hp, hnone⟩
    obtain ⟨r, ns⟩ := q
    rcases List.mem_cons.mp hp with h | h
    · subst h
      rw [addVectorResults, hnone]
    · rw [addVectorResults]
      cases hr : r.text with
      | none => rfl
      | some t => exact ih _ ⟨p, h, hnone⟩

lemma av_ok (l : List (VectorResult × ℚ)) :
    ∀ d : List Combined, (∀ p ∈ l, p.1.text ≠ none) →
      ∃ d', addVectorResults l d = .ok d' := by
  induction l with
  | nil => intro d _; exact ⟨d, rfl⟩
  | cons q rest ih =>
    intro d hall
    obtain ⟨r, ns⟩ := q
    cases hr : r.text with
    | none =>
      exact absurd hr (hall (r, ns) (List.mem_cons_self _ _))
    | some t =>
      obtain ⟨d', hd'⟩ := ih _ (fun p hp => hall p (List.mem_cons_of_mem _ hp))
      exact ⟨d', by rw [addVectorResults, hr]; exact hd'⟩

lemma av_pres (l : List (VectorResult × ℚ)) :
    ∀ d d' : List Combined, addVectorResults l d = .ok d' →
      ∀ e ∈ d, e ∈ d' := by
  induction l with
  | nil =>
    intro d d' h e he
    rw [addVectorResults] at h
    cases h; exact he
  | cons q rest ih =>
    intro d d' h e he
    obtain ⟨r, ns⟩ := q
    rw [addVectorResults] at h
    cases hr : r.text with
    | none => rw [hr] at h; cases h
    | some t =>
      rw [hr] at h
      refine ih _ _ h e ?_
      split
      · exact he
      · exact List.mem_append_left _ he

lemma av_sub (l : List (VectorResult × ℚ)) :
    ∀ d d' : List Combined, addVectorResults l d = .ok d' →
      ∀ e ∈ d', e ∈ d ∨ ∃ p ∈ l, p.1.text = some e.text ∧
        e.chunk_id = p.1.chunk_id ∧ e.document_id = p.1.document_id ∧
        e.metadata = p.1.metadata ∧ e.vector_score = p.2 ∧
        e.bm25_score = 0 := by
  induction l with
  | nil =>
    intro d d' h e he
    rw [addVectorResults] at h
    cases h; exact Or.inl he
  | cons q rest ih =>
    intro d d' h e he
    obtain ⟨r, ns⟩ := q
    rw [addVectorResults] at h
    cases hr : r.text with
    | none => rw [hr] at h; cases h
    | some t =>
      rw [hr] at h
      rcases ih _ _ h e he with hmem | ⟨p, hp, hrest⟩
      · by_cases hc : dictContains d t = true
        · rw [if_pos hc] at hmem
          exact Or.inl hmem
        · rw [if_neg hc] at hmem
          rcases List.mem_append.mp hmem with hmem | hmem
          · exact Or.inl hmem
          · rcases List.mem_singleton.mp hmem with rfl
            exact Or.inr ⟨(r, ns), List.mem_cons_self _ _,
              hr, rfl, rfl, rfl, rfl, rfl⟩
      · exact Or.inr ⟨p, List.mem_cons_of_mem _ hp, hrest⟩

lemma av_texts_mono (l : List (VectorResult × ℚ)) (d d' : List Combined)
    (h : addVectorResults l d = .ok d')
    {t : String} (ht : t ∈ d.map Combined.text) :
    t ∈ d'.map Combined.text := by
  rcases List.mem_map.mp ht with ⟨e, he, rfl⟩
  exact List.mem_map.mpr ⟨e, av_pres l d d' h e he, rfl⟩

lemma av_complete (l : List (VectorResult × ℚ)) :
    ∀ d d' : List Combined, addVectorResults l d = .ok d' →
      ∀ p ∈ l, ∀ t, p.1.text = some t → t ∈ d'.map Combined.text := by
  induction l with
  | nil =>
    intro d d' _ p hp
    exact absurd hp (List.not_mem_nil p)
  | cons q rest ih =>
    intro d d' h p hp t hpt
    obtain ⟨r, ns⟩ := q
    rw [addVectorResults] at h
    rcases List.mem_cons.mp hp with hph | hph
    · subst hph
      rw [hpt] at h
      refine av_texts_mono rest _ d' h ?_
      split
      next hc => exact (dictContains_iff d t).mp hc
      next hc => simp
    · cases hr : r.text with
      | none => rw [hr] at h; cases h
      | some t0 =>
        rw [hr] at h
        exact ih _ _ h p hph t hpt

lemma setBm25_texts (d : List Combined) (t : String) (s : ℚ) :
    (dictSetBm25 d t s).map Combined.text = d.map Combined.text := by
  rw [dictSetBm25, List.map_map]
  refine List.map_congr_left ?_
  intro e _
  by_cases h : e.text = t
  · simp [h]
  · simp [h]

lemma ab_texts (l : List (BM25Result × ℚ)) :
    ∀ (d : List Combined) (t : String),
      t ∈ (addBm25Results l d).map Combined.text ↔
        t ∈ d.map Combined.text ∨ ∃ p ∈ l, p.1.text = t := by
  induction l with
  | nil =>
    intro d t
    rw [addBm25Results]
    simp
  | cons q rest ih =>
    intro d t
    obtain ⟨b, ns⟩ := q
    rw [addBm25Results]
    by_cases hc : dictContains d b.text = true
    · rw [if_pos hc, ih, setBm25_texts]
      constructor
      · rintro (h | ⟨p, hp, hpt⟩)
        · exact Or.inl h
        · exact Or.inr ⟨p, List.mem_cons_of_mem _ hp, hpt⟩
      · rintro (h | ⟨p, hp, hpt⟩)
        · exact Or.inl h
        · rcases List.mem_cons.mp hp with rfl | hp
          · exact Or.inl (hpt ▸ (dictContains_iff d b.text).mp hc)
          · exact Or.inr ⟨p, hp, hpt⟩
    · rw [if_neg hc, ih]
      rw [List.map_append]
      simp only [List.mem_append, List.map_cons, List.map_nil,
        List.mem_singleton]
      constructor
      · rintro ((h | h) | ⟨p, hp, hpt⟩)
        · exact Or.inl h
        · exact Or.inr ⟨(b, ns), List.mem_cons_self _ _, h.symm⟩
        · exact Or.inr ⟨p, List.mem_cons_of_mem _ hp, hpt⟩
      · rintro (h | ⟨p, hp, hpt⟩)
        · exact Or.inl (Or.inl h)
        · rcases List.mem_cons.mp hp with rfl | hp
          · exact Or.inl (Or.inr hpt.symm)
          · exact Or.inr ⟨p, hp, hpt⟩

lemma ab_nodup (l : List (BM25Result × ℚ)) :
    ∀ d : List Combined, (d.map Combined.text).Nodup →
      ((addBm25Results l d).map Combined.text).Nodup := by
  induction l with
  | nil =>
    intro d h
    rw [addBm25Results]
    exact h
  | cons q rest ih =>
    intro d h
    obtain ⟨b, ns⟩ := q
    rw [addBm25Results]
    by_cases hc : dictContains d b.text = true
    · rw [if_pos hc]
      refine ih _ ?_
      rw [setBm25_texts]
      exact h
    · rw [if_neg hc]
      refine ih _ ?_
      rw [List.map_append]
      refine List.Nodup.append h (by simp) ?_
      intro a ha hb
      simp only [List.map_cons, List.map_nil, List.mem_singleton] at hb
      subst hb
      exact hc ((dictContains_iff d _).mpr ha)

lemma ab_origin (l : List (BM25Result × ℚ)) :
    ∀ (d : List Combined), ∀ e ∈ addBm25Results l d,
      (∃ e0 ∈ d, e0.text = e.text ∧ e0.chunk_id = e.chunk_id ∧
        e0.document_id = e.document_id ∧ e0.metadata = e.metadata ∧
        e0.vector_score = e.vector_score) ∨
      (e.vector_score = 0 ∧ e.chunk_id = none) := by
  induction l with
  | nil =>
    intro d e he
    rw [addBm25Results] at he
    exact Or.inl ⟨e, he, rfl, rfl, rfl, rfl, rfl⟩
  | cons q rest ih =>
    intro d e he
    obtain ⟨b, ns⟩ := q
    rw [addBm25Results] at he
    by_cases hc : dictContains d b.text = true
    · rw [if_pos hc] at he
      rcases ih _ e he with ⟨e1, he1, ht, hck, hdoc, hmeta, hv⟩ | hzero
      · rw [dictSetBm25] at he1
        rcases List.mem_map.mp he1 with ⟨e0, he0, heq⟩
        by_cases hbt : e0.text = b.text
        · rw [if_pos hbt] at heq
          subst heq
          exact Or.inl ⟨e0, he0, ht, hck, hdoc, hmeta, hv⟩
        · rw [if_neg hbt] at heq
          subst heq
          exact Or.inl ⟨e0, he0, ht, hck, hdoc, hmeta, hv⟩
      · exact Or.inr hzero
    · rw [if_neg hc] at he
      rcases ih _ e he with ⟨e1, he1, ht, hck, hdoc, hmeta, hv⟩ | hzero
      · rcases List.mem_append.mp he1 with he1 | he1
        · exact Or.inl ⟨e1, he1, ht, hck, hdoc, hmeta, hv⟩
        · rcases List.mem_singleton.mp he1 with rfl
          exact Or.inr ⟨hv.symm, hck.symm⟩
      · exact Or.inr hzero

lemma ab_notin_mem (l : List (BM25Result × ℚ)) :
    ∀ (d : List Combined), ∀ e ∈ addBm25Results l d,
      e.text ∉ l.map (fun p => p.1.text) → e ∈ d := by
  induction l with
  | nil =>
    intro d e he _
    rw [addBm25Results] at he
    exact he
  | cons q rest ih =>
    intro d e he hnotin
    obtain ⟨b, ns⟩ := q
    rw [List.map_cons, List.mem_cons] at hnotin
    push_neg at hnotin
    obtain ⟨hne, hnrest⟩ := hnotin
    rw [addBm25Results] at he
    by_cases hc : dictContains d b.text = true
    · rw [if_pos hc] at he
      have he' := ih _ e he hnrest
      rw [dictSetBm25] at he'
      rcases List.mem_map.mp he' with ⟨e0, he0, heq⟩
      by_cases hbt : e0.text = b.text
      · rw [if_pos hbt] at heq
        subst heq
        exact absurd hbt hne
      · rw [if_neg hbt] at heq
        subst heq
        exact he0
    · rw [if_neg hc] at he
      have he' := ih _ e he hnrest
      rcases List.mem_append.mp he' with he' | he'
      · exact he'
      · rcases List.mem_singleton.mp he' with rfl
        exact absurd rfl hne

lemma ab_untouched (l : List (BM25Result × ℚ)) :
    ∀ (d : List Combined), ∀ e ∈ d,
      (∀ p ∈ l, p.1.text ≠ e.text) → e ∈ addBm25Results l d := by
  induction l with
  | nil =>
    intro d e he _
    rw [addBm25Results]
    exact he
  | cons q rest ih =>
    intro d e he hall
    obtain ⟨b, ns⟩ := q
    rw [addBm25Results]
    have hbe : b.text ≠ e.text := hall (b, ns) (List.mem_cons_self _ _)
    by_cases hc : dictContains d b.text = true
    · rw [if_pos hc]
      refine ih _ e ?_ (fun p hp => hall p (List.mem_cons_of_mem _ hp))
      rw [dictSetBm25]
      refine List.mem_map.mpr ⟨e, he, ?_⟩
      rw [if_neg (fun h => hbe h.symm)]
    · rw [if_neg hc]
      exact ih _ e (List.mem_append_left _ he)
        (fun p hp => hall p (List.mem_cons_of_mem _ hp))

lemma ab_one (l : List (BM25Result × ℚ)) :
    ∀ (d : List Combined) (e : Combined) (b : BM25Result) (nb : ℚ),
      (b, nb) ∈ l → (l.map (fun p => p.1.text)).Nodup →
      e ∈ d → e.text = b.text →
      { e with bm25_score := nb } ∈ addBm25Results l d := by
  induction l with
  | nil =>
    intro d e b nb hb
    exact absurd hb (List.not_mem_nil _)
  | cons q rest ih =>
    intro d e b nb hb hnd he het
    obtain ⟨b0, n0⟩ := q
    rw [List.map_cons, List.nodup_cons] at hnd
    obtain ⟨hb0notin, hndrest⟩ := hnd
    rw [addBm25Results]
    rcases List.mem_cons.mp hb with heq | hbrest
    · injection heq with heq1 heq2
      subst heq1; subst heq2
      have hc : dictContains d b.text = true :=
        (dictContains_iff d b.text).mpr
          (List.mem_map.mpr ⟨e, he, het⟩)
      rw [if_pos hc]
      refine ab_untouched rest _ _ ?_ ?_
      · rw [dictSetBm25]
        refine List.mem_map.mpr ⟨e, he, ?_⟩
        rw [if_pos het]
      · intro p hp
        intro hcontra
        exact hb0notin (List.mem_map.mpr ⟨p, hp, by rw [hcontra, het]⟩)
    · have hb0ne : b0.text ≠ e.text := by
        intro hcontra
        refine hb0notin (List.mem_map.mpr ⟨(b, nb), hbrest, ?_⟩)
        rw [hcontra, het]
      by_cases hc : dictContains d b0.text = true
      · rw [if_pos hc]
        refine ih _ { e with bm25_score := e.bm25_score } b nb hbrest
          hndrest ?_ het
        rw [dictSetBm25]
        refine List.mem_map.mpr ⟨e, he, ?_⟩
        rw [if_neg (fun h => hb0ne h.symm)]
      · rw [if_neg hc]
        exact ih _ e b nb hbrest hndrest (List.mem_append_left _ he) het

lemma av_find (l : List (VectorResult × ℚ)) :
    ∀ (d : List Combined) (d' : List Combined) (t : String)
      (r : VectorResult) (nv : ℚ),
      l.find? (fun p => decide (p.1.text = some t)) = some (r, nv) →
      t ∉ d.map Combined.text →
      addVectorResults l d = .ok d' →
      ∃ e ∈ d', e.text = t ∧ e.chunk_id = r.chunk_id ∧
        e.document_id = r.document_id ∧ e.metadata = r.metadata ∧
        e.vector_score = nv ∧ e.bm25_score = 0 := by
  induction l with
  | nil =>
    intro d d' t r nv hfind
    rw [List.find?_nil] at hfind
    cases hfind
  | cons q rest ih =>
    intro d d' t r nv hfind hnot hav
    obtain ⟨r0, n0⟩ := q
    by_cases hp : r0.text = some t
    · have hdec : decide ((r0, n0).1.text = some t) = true := by simp [hp]
      simp only [List.find?_cons, hdec] at hfind
      injection hfind with hfind
      injection hfind with h1 h2
      subst h1; subst h2
      rw [addVectorResults] at hav
      simp only [hp] at hav
      have hc : ¬ dictContains d t = true := by
        intro hcc
        exact hnot ((dictContains_iff d t).mp hcc)
      rw [if_neg hc] at hav
      exact ⟨_, av_pres rest _ _ hav _
        (List.mem_append_right _ (List.mem_singleton_self _)),
        rfl, rfl, rfl, rfl, rfl, rfl⟩
    · have hdec : decide ((r0, n0).1.text = some t) = false := by
        simp [hp]
      simp only [List.find?_cons, hdec] at hfind
      cases hr0 : r0.text with
      | none =>
        rw [addVectorResults, hr0] at hav
        cases hav
      | some t0 =>
        rw [addVectorResults, hr0] at hav
        have ht0 : t0 ≠ t := by
          intro hcontra
          exact hp (by rw [hr0, hcontra])
        refine ih _ d' t r nv hfind ?_ hav
        split
        · exact hnot
        · rw [List.map_append]
          intro hmem
          rcases List.mem_append.mp hmem with hmem | hmem
          · exact hnot hmem
          · simp only [List.map_cons, List.map_nil,
              List.mem_singleton] at hmem
            exact ht0 hmem.symm

lemma attachHybrid_text (vw kw : ℚ) (e : Combined) :
    (attachHybrid vw kw e).text = e.text := rfl

lemma attachHybrid_map_texts (vw kw : ℚ) (d : List Combined) :
    ((d.map (attachHybrid vw kw)).map Combined.text) =
      d.map Combined.text := by
  rw [List.map_map]
  exact List.map_congr_left (fun e _ => rfl)

lemma combine_elim (vs : List VectorResult) (bs : List BM25Result)
    (vw kw : ℚ) (out : List Combined)
    (h : combine_results vs bs vw kw = .ok out) :
    ∃ d1, addVectorResults (vs.zip (normalizedVectorScores vs)) [] =
        .ok d1 ∧
      out = (addBm25Results (bs.zip (normalizedBm25Scores bs)) d1).map
        (attachHybrid vw kw) := by
  rw [combine_results] at h
  cases hav : addVectorResults (vs.zip (normalizedVectorScores vs)) [] with
  | error e => rw [hav] at h; cases h
  | ok d1 =>
    rw [hav] at h
    injection h with h
    exact ⟨d1, rfl, h.symm⟩

lemma av_nodup (l : List (VectorResult × ℚ)) :
    ∀ d d' : List Combined, addVectorResults l d = .ok d' →
      (d.map Combined.text).Nodup → (d'.map Combined.text).Nodup := by
  induction l with
  | nil =>
    intro d d' h hnd
    rw [addVectorResults] at h
    cases h; exact hnd
  | cons q rest ih =>
    intro d d' h hnd
    obtain ⟨r, ns⟩ := q
    rw [addVectorResults] at h
    cases hr : r.text with
    | none => rw [hr] at h; cases h
    | some t =>
      rw [hr] at h
      refine ih _ _ h ?_
      by_cases hc : dictContains d t = true
      · rw [if_pos hc]; exact hnd
      · rw [if_neg hc]
        rw [List.map_append]
        refine List.Nodup.append hnd (List.nodup_singleton t) ?_
        intro a ha hb
        rcases List.mem_singleton.mp hb with rfl
        exact (hc ((dictContains_iff d a).mpr ha)).elim

lemma hvtext_of_d1 (vs : List VectorResult) (d1 : List Combined)
    (hav : addVectorResults
      (vs.zip (normalizedVectorScores vs)) [] = .ok d1) :
    ∀ e ∈ d1, e.text ∈ vs.filterMap VectorResult.text := by
  intro e he
  rcases av_sub _ [] d1 hav e he with h0 | ⟨p, hp, hpt, -, -, -, -, -⟩
  · exact absurd h0 (List.not_mem_nil e)
  · exact List.mem_filterMap.mpr ⟨p.1, (List.of_mem_zip hp).1, hpt⟩

lemma map_fst_text_zip_bm25 (bs : List BM25Result) :
    (bs.zip (normalizedBm25Scores bs)).map (fun p => p.1.text) =
      bs.map BM25Result.text := by
  have h1 : (bs.zip (normalizedBm25Scores bs)).map (fun p => p.1.text) =
      ((bs.zip (normalizedBm25Scores bs)).map Prod.fst).map
        BM25Result.text := by
    rw [List.map_map]
    rfl
  rw [h1, List.map_fst_zip _ _
    (le_of_eq (length_normalizedBm25Scores bs).symm)]

/-- C2: every candidate text present in either input list appears exactly
once in the merged output (text is the join key), a candidate present in
only one list has the missing score defaulted to 0.0, and the hybrid
score is the weighted combination of the two (possibly defaulted)
normalized scores. -/
theorem combine_results_merge_completeness
    (vs : List VectorResult) (bs : List BM25Result) (vw kw : ℚ)
    (out : List Combined) (h : combine_results vs bs vw kw = .ok out) :
    (∀ t : String,
      (t ∈ vs.filterMap VectorResult.text ∨ t ∈ bs.map BM25Result.text) ↔
        (out.map Combined.text).count t = 1) ∧
    (∀ e ∈ out, e.text ∉ bs.map BM25Result.text → e.bm25_score = 0) ∧
    (∀ e ∈ out, e.text ∉ vs.filterMap VectorResult.text →
      e.vector_score = 0) ∧
    (∀ e ∈ out, e.hybrid_score = e.vector_score * vw + e.bm25_score * kw)
    := by
  obtain ⟨d1, hav, hout⟩ := combine_elim vs bs vw kw out h
  have hlenv : vs.length ≤ (normalizedVectorScores vs).length :=
    le_of_eq (length_normalizedVectorScores vs).symm
  have hlenb : bs.length ≤ (normalizedBm25Scores bs).length :=
    le_of_eq (length_normalizedBm25Scores bs).symm
  have htexts_out : out.map Combined.text =
      (addBm25Results (bs.zip (normalizedBm25Scores bs)) d1).map
        Combined.text := by
    rw [hout, attachHybrid_map_texts]
  have hmem_iff : ∀ t, t ∈ out.map Combined.text ↔
      (t ∈ vs.filterMap VectorResult.text ∨
        t ∈ bs.map BM25Result.text) := by
    intro t
    rw [htexts_out]
    rw [ab_texts]
    constructor
    · rintro (ht | ⟨p, hp, hpt⟩)
      · rcases List.mem_map.mp ht with ⟨e, he, rfl⟩
        exact Or.inl (hvtext_of_d1 vs d1 hav e he)
      · exact Or.inr
          (List.mem_map.mpr ⟨p.1, (List.of_mem_zip hp).1, hpt⟩)
    · rintro (ht | ht)
      · rcases List.mem_filterMap.mp ht with ⟨r, hr, hrt⟩
        obtain ⟨ns, hns⟩ := mem_zip_left vs _ hlenv hr
        exact Or.inl (av_complete _ [] d1 hav (r, ns) hns t hrt)
      · rcases List.mem_map.mp ht with ⟨b, hb, rfl⟩
        obtain ⟨nbv, hnbv⟩ := mem_zip_left bs _ hlenb hb
        exact Or.inr ⟨(b, nbv), hnbv, rfl⟩
  have hnodup : (out.map Combined.text).Nodup := by
    rw [htexts_out]
    exact ab_nodup _ d1 (av_nodup _ [] d1 hav (by simp))
  refine ⟨?_, ?_, ?_, ?_⟩
  · intro t
    rw [← hmem_iff t]
    constructor
    · intro ht
      exact List.count_eq_one_of_mem hnodup ht
    · intro hc
      exact List.count_pos_iff.mp (by omega)
  · intro e he hnb
    rw [hout] at he
    rcases List.mem_map.mp he with ⟨e2, he2, rfl⟩
    show e2.bm25_score = 0
    have hne : e2.text ∉ (bs.zip (normalizedBm25Scores bs)).map
        (fun p => p.1.text) := by
      rw [map_fst_text_zip_bm25]
      exact hnb
    have hd1 := ab_notin_mem _ d1 e2 he2 hne
    rcases av_sub _ [] d1 hav e2 hd1 with h0 | ⟨p, hp, -, -, -, -, -, hbm⟩
    · exact absurd h0 (List.not_mem_nil e2)
    · exact hbm
  · intro e he hnv
    rw [hout] at he
    rcases List.mem_map.mp he with ⟨e2, he2, rfl⟩
    show e2.vector_score = 0
    rcases ab_origin _ d1 e2 he2 with
      ⟨e0, he0, ht, -, -, -, hv⟩ | ⟨hz, -⟩
    · exfalso
      apply hnv
      have hmem0 := hvtext_of_d1 vs d1 hav e0 he0
      rw [ht] at hmem0
      exact hmem0
    · exact hz
  · intro e he
    rw [hout] at he
    rcases List.mem_map.mp he with ⟨e2, he2, rfl⟩
    rfl

/-- C9: when a text occurs in both input lists, the merged candidate
keeps the chunk_id, document_id, metadata and normalized vector score of
the first dense result with that text, takes only the normalized
bm25_score from the lexical hit, and occurs exactly once in the output. -/
theorem combine_results_dense_precedence
    (vs : List VectorResult) (bs : List BM25Result) (vw kw : ℚ)
    (out : List Combined) (t : String) (r : VectorResult) (nv : ℚ)
    (b : BM25Result) (nb : ℚ)
    (h : combine_results vs bs vw kw = .ok out)
    (hfind : (vs.zip (normalizedVectorScores vs)).find?
        (fun p => decide (p.1.text = some t)) = some (r, nv))
    (hbmem : (b, nb) ∈ bs.zip (normalizedBm25Scores bs))
    (hbt : b.text = t)
    (hnd : (bs.map BM25Result.text).Nodup) :
    (∃ e ∈ out, e.text = t ∧ e.chunk_id = r.chunk_id ∧
      e.document_id = r.document_id ∧ e.metadata = r.metadata ∧
      e.vector_score = nv ∧ e.bm25_score = nb) ∧
    (out.map Combined.text).count t = 1 := by
  obtain ⟨d1, hav, hout⟩ := combine_elim vs bs vw kw out h
  obtain ⟨e, he, het, hck, hdoc, hmeta, hv, hbm⟩ :=
    av_find _ [] d1 t r nv hfind (by simp) hav
  have hnd' : ((bs.zip (normalizedBm25Scores bs)).map
      (fun p => p.1.text)).Nodup := by
    rw [map_fst_text_zip_bm25]
    exact hnd
  have hmem2 := ab_one _ d1 e b nb hbmem hnd' he (het.trans hbt.symm)
  have hmemout : attachHybrid vw kw { e with bm25_score := nb } ∈ out := by
    rw [hout]
    exact List.mem_map.mpr ⟨_, hmem2, rfl⟩
  have hnodup : (out.map Combined.text).Nodup := by
    rw [hout, attachHybrid_map_texts]
    exact ab_nodup _ d1 (av_nodup _ [] d1 hav (by simp))
  constructor
  · exact ⟨_, hmemout, het, hck, hdoc, hmeta, hv, rfl⟩
  · refine List.count_eq_one_of_mem hnodup ?_
    exact List.mem_map.mpr ⟨_, hmemout, het⟩

/-- Witness for C9 at a concrete merge where the text occurs twice on the
dense side and once on the lexical side. -/
theorem combine_results_dense_precedence_witness :
    combine_results
        [⟨some "c1", some "d1", some "T", 1, [("k", "v")]⟩,
         ⟨some "c2", some "d2", some "T", 0, []⟩]
        [⟨"T", [], 2⟩] 1 0 =
      .ok [⟨"T", some "c1", some "d1", [("k", "v")], 1, 1, 1, none⟩] ∧
    (∃ e ∈ [(⟨"T", some "c1", some "d1", [("k", "v")], 1, 1, 1,
        none⟩ : Combined)], e.text = "T" ∧ e.chunk_id = some "c1" ∧
      e.document_id = some "d1" ∧ e.metadata = [("k", "v")] ∧
      e.vector_score = 1 ∧ e.bm25_score = 1) := by
  have hcomb : combine_results
      [⟨some "c1", some "d1", some "T", 1, [("k", "v")]⟩,
       ⟨some "c2", some "d2", some "T", 0, []⟩]
      [⟨"T", [], 2⟩] 1 0 =
      .ok [⟨"T", some "c1", some "d1", [("k", "v")], 1, 1, 1, none⟩] := by
    norm_num [combine_results, normalizedVectorScores,
      normalizedBm25Scores, addVectorResults, addBm25Results,
      dictContains, dictSetBm25, attachHybrid]
  refine ⟨hcomb, ?_⟩
  have hmain := combine_results_dense_precedence
    [⟨some "c1", some "d1", some "T", 1, [("k", "v")]⟩,
     ⟨some "c2", some "d2", some "T", 0, []⟩]
    [⟨"T", [], 2⟩] 1 0
    [⟨"T", some "c1", some "d1", [("k", "v")], 1, 1, 1, none⟩]
    "T" ⟨some "c1", some "d1", some "T", 1, [("k", "v")]⟩ 1
    ⟨"T", [], 2⟩ 1 hcomb
    (by norm_num [normalizedVectorScores, List.find?])
    (by norm_num [normalizedBm25Scores]) rfl (by simp)
  exact hmain.1

/-- C3 (amended): normalized dense scores lie in [0,1] and are all 1.0
when the raw dense scores are all equal; normalized lexical scores lie in
[0,1] when the raw lexical scores are positive (as the pipeline's
positivity filter guarantees), and are all 0.0 exactly in the max = 0
case, i.e. when the raw lexical scores are all 0. -/
theorem normalization_bounds
    (vs : List VectorResult) (bs : List BM25Result)
    (hv : vs ≠ []) (hb : bs ≠ []) :
    (∀ q ∈ normalizedVectorScores vs, 0 ≤ q ∧ q ≤ 1) ∧
    ((∀ b ∈ bs, 0 < b.bm25_score) →
      ∀ q ∈ normalizedBm25Scores bs, 0 ≤ q ∧ q ≤ 1) ∧
    ((∀ r ∈ vs, ∀ r' ∈ vs, r.score = r'.score) →
      ∀ q ∈ normalizedVectorScores vs, q = 1) ∧
    ((∀ b ∈ bs, b.bm25_score = 0) →
      ∀ q ∈ normalizedBm25Scores bs, q = 0) := by
  refine ⟨?_, ?_, ?_, ?_⟩
  · cases vs with
    | nil => intro q hq; simp [normalizedVectorScores] at hq
    | cons v rest =>
      rw [normalizedVectorScores]
      have hbridge_max : rest.foldl (fun a r => max a r.score) v.score =
          (rest.map VectorResult.score).foldl max v.score :=
        (List.foldl_map _ _ _ _).symm
      have hbridge_min : rest.foldl (fun a r => min a r.score) v.score =
          (rest.map VectorResult.score).foldl min v.score :=
        (List.foldl_map _ _ _ _).symm
      split
      next hpos =>
        intro q hq
        rcases List.mem_map.mp hq with ⟨r, hr, rfl⟩
        have hminle : rest.foldl (fun a r => min a r.score) v.score ≤
            r.score := by
          rw [hbridge_min]
          rcases List.mem_cons.mp hr with rfl | hr
          · exact foldl_min_le_init _ _
          · exact foldl_min_le_of_mem _ _ (List.mem_map_of_mem _ hr)
        have hmaxge : r.score ≤
            rest.foldl (fun a r => max a r.score) v.score := by
          rw [hbridge_max]
          rcases List.mem_cons.mp hr with rfl | hr
          · exact foldl_max_init_le _ _
          · exact le_foldl_max_of_mem _ _ (List.mem_map_of_mem _ hr)
        constructor
        · exact div_nonneg (sub_nonneg.mpr hminle) (le_of_lt hpos)
        · rw [div_le_one hpos]
          exact sub_le_sub_right hmaxge _
      next =>
        intro q hq
        rcases List.mem_map.mp hq with ⟨r, hr, rfl⟩
        norm_num
  · cases bs with
    | nil => intro _ q hq; simp [normalizedBm25Scores] at hq
    | cons b rest =>
      intro hpos
      rw [normalizedBm25Scores]
      have hbridge : rest.foldl (fun a r => max a r.bm25_score)
          b.bm25_score =
          (rest.map BM25Result.bm25_score).foldl max b.bm25_score :=
        (List.foldl_map _ _ _ _).symm
      have hmaxpos : 0 < rest.foldl (fun a r => max a r.bm25_score)
          b.bm25_score := by
        refine lt_of_lt_of_le (hpos b (List.mem_cons_self _ _)) ?_
        rw [hbridge]
        exact foldl_max_init_le _ _
      rw [if_pos hmaxpos]
      intro q hq
      rcases List.mem_map.mp hq with ⟨r, hr, rfl⟩
      have hle : r.bm25_score ≤
          rest.foldl (fun a r => max a r.bm25_score) b.bm25_score := by
        rw [hbridge]
        rcases List.mem_cons.mp hr with rfl | hr
        · exact foldl_max_init_le _ _
        · exact le_foldl_max_of_mem _ _ (List.mem_map_of_mem _ hr)
      constructor
      · exact div_nonneg (le_of_lt (hpos r hr)) (le_of_lt hmaxpos)
      · rw [div_le_one hmaxpos]
        exact hle
  · cases vs with
    | nil => intro _ q hq; simp [normalizedVectorScores] at hq
    | cons v rest =>
      intro heq
      rw [normalizedVectorScores]
      have hbridge_max : rest.foldl (fun a r => max a r.score) v.score =
          (rest.map VectorResult.score).foldl max v.score :=
        (List.foldl_map _ _ _ _).symm
      have hbridge_min : rest.foldl (fun a r => min a r.score) v.score =
          (rest.map VectorResult.score).foldl min v.score :=
        (List.foldl_map _ _ _ _).symm
      have hscore : ∀ s ∈ rest.map VectorResult.score, s = v.score := by
        intro s hs
        rcases List.mem_map.mp hs with ⟨r, hr, rfl⟩
        exact heq r (List.mem_cons_of_mem _ hr) v (List.mem_cons_self _ _)
      have hmax : rest.foldl (fun a r => max a r.score) v.score =
          v.score := by
        rw [hbridge_max]
        rcases foldl_max_eq_init_or_mem (rest.map VectorResult.score)
          v.score with h0 | h0
        · exact h0
        · exact hscore _ h0
      have hmin : rest.foldl (fun a r => min a r.score) v.score =
          v.score := by
        rw [hbridge_min]
        rcases foldl_min_eq_init_or_mem (rest.map VectorResult.score)
          v.score with h0 | h0
        · exact h0
        · exact hscore _ h0
      rw [hmax, hmin]
      rw [if_neg (by norm_num)]
      intro q hq
      rcases List.mem_map.mp hq with ⟨r, hr, rfl⟩
      rfl
  · cases bs with
    | nil => intro _ q hq; simp [normalizedBm25Scores] at hq
    | cons b rest =>
      intro hzero
      rw [normalizedBm25Scores]
      have hbridge : rest.foldl (fun a r => max a r.bm25_score)
          b.bm25_score =
          (rest.map BM25Result.bm25_score).foldl max b.bm25_score :=
        (List.foldl_map _ _ _ _).symm
      have hmax : rest.foldl (fun a r => max a r.bm25_score)
          b.bm25_score = 0 := by
        rw [hbridge]
        rcases foldl_max_eq_init_or_mem (rest.map BM25Result.bm25_score)
          b.bm25_score with h0 | h0
        · rw [h0]
          exact hzero b (List.mem_cons_self _ _)
        · rcases List.mem_map.mp h0 with ⟨r, hr, hr2⟩
          rw [← hr2]
          exact hzero r (List.mem_cons_of_mem _ hr)
      rw [hmax]
      rw [if_neg (by norm_num)]
      intro q hq
      rcases List.mem_map.mp hq with ⟨r, hr, rfl⟩
      rfl

/-- Counterexample for C3 as stated: a lexical batch whose raw scores are
all equal (to 5) normalizes to 1.0 everywhere, not to 0.0. -/
theorem lexical_allequal_norm_cex :
    normalizedBm25Scores [⟨"a", [], 5⟩, ⟨"b", [], 5⟩] = [1, 1] ∧
    (1 : ℚ) ≠ 0 :=
  ⟨by norm_num [normalizedBm25Scores], by norm_num⟩

/-- Witness for C3 at concrete nonempty batches. -/
theorem normalization_bounds_witness :
    (∀ q ∈ normalizedVectorScores
        [⟨none, none, some "a", 2, []⟩, ⟨none, none, some "b", 1, []⟩],
      0 ≤ q ∧ q ≤ 1) ∧
    (∀ q ∈ normalizedBm25Scores [⟨"a", [], 3⟩], 0 ≤ q ∧ q ≤ 1) :=
  ⟨(normalization_bounds
      [⟨none, none, some "a", 2, []⟩, ⟨none, none, some "b", 1, []⟩]
      [⟨"a", [], 3⟩] (by simp) (by simp)).1,
   (normalization_bounds
      [⟨none, none, some "a", 2, []⟩, ⟨none, none, some "b", 1, []⟩]
      [⟨"a", [], 3⟩] (by simp) (by simp)).2.1
     (by intro b hb; rcases List.mem_singleton.mp hb with rfl; norm_num)⟩

/-- C4: with both weights zero the weight renormalization divides by
zero, so the call fails with ZeroDivisionError before either retrieval
path is consulted, and no default weight split is substituted. -/
theorem hybrid_search_zero_weights_error (st : HybridState)
    (denseSearch : Nat → List VectorResult) (bm25_scores : List ℚ)
    (top_k : Nat) (metadata_filters : Option (List (String × String))) :
    hybrid_search st denseSearch bm25_scores top_k 0 0 metadata_filters =
      (.error "ZeroDivisionError", ⟨none, none⟩) := by
  rw [hybrid_search]
  norm_num

/-- Witness for C4 at a concrete state whose oracles would have returned
candidates had they been consulted. -/
theorem hybrid_search_zero_weights_error_witness :
    hybrid_search ⟨true, ["doc"], [[]]⟩
        (fun _ => [⟨some "c", some "d", some "t", 1, []⟩]) [2] 10 0 0
        none =
      (.error "ZeroDivisionError", ⟨none, none⟩) :=
  hybrid_search_zero_weights_error ⟨true, ["doc"], [[]]⟩
    (fun _ => [⟨some "c", some "d", some "t", 1, []⟩]) [2] 10 none

/-- C6 (amended): a batch containing a candidate with no text field makes
the whole merge fail with a KeyError; the malformed candidate is not
skipped, and none of the remaining candidates of the batch are scored or
returned. -/
theorem combine_results_missing_text_fails_batch
    (vs : List VectorResult) (bs : List BM25Result) (vw kw : ℚ)
    (hbad : ∃ r ∈ vs, r.text = none) :
    combine_results vs bs vw kw = .error "KeyError: text" := by
  obtain ⟨r, hr, hnone⟩ := hbad
  have hlen : vs.length ≤ (normalizedVectorScores vs).length :=
    le_of_eq (length_normalizedVectorScores vs).symm
  obtain ⟨ns, hns⟩ := mem_zip_left vs _ hlen hr
  rw [combine_results,
    av_error (vs.zip (normalizedVectorScores vs)) []
      ⟨(r, ns), hns, hnone⟩]

/-- Witness for C6 (amended): a concrete batch with one healthy dense
candidate followed by one with no text. -/
theorem combine_results_missing_text_fails_batch_witness :
    combine_results
        [⟨some "c1", some "d1", some "ok", 1, []⟩,
         ⟨some "c2", some "d2", none, 2, []⟩]
        [⟨"ok", [], 1⟩] 1 0 = .error "KeyError: text" :=
  combine_results_missing_text_fails_batch
    [⟨some "c1", some "d1", some "ok", 1, []⟩,
     ⟨some "c2", some "d2", none, 2, []⟩]
    [⟨"ok", [], 1⟩] 1 0
    ⟨⟨some "c2", some "d2", none, 2, []⟩, by simp, rfl⟩

/-- Counterexample for C6 as stated: on a concrete batch holding a good
candidate and a candidate with no text, the merger does not score the
remaining candidate; the whole batch fails with KeyError. -/
theorem combine_results_missing_text_cex :
    combine_results
        [⟨some "g", some "gd", some "good", 3, []⟩,
         ⟨none, none, none, 1, []⟩,
         ⟨some "h", some "hd", some "also good", 2, []⟩]
        [] 1 0 = .error "KeyError: text" := by
  norm_num [combine_results, normalizedVectorScores, addVectorResults,
    dictContains]

/-- C7: constructing the reranker immediately loads the tokenizer and the
model, because __init__ invokes _lazy_load; a reranker that is
constructed but never asked to score has both resources loaded. -/
theorem reranker_init_loads_model (model_name : String)
    (cuda_available : Bool) :
    (CrossEncoderReranker.init model_name cuda_available).model =
        some model_name ∧
      (CrossEncoderReranker.init model_name cuda_available).tokenizer =
        some model_name := by
  constructor <;> rfl

/-- C10: rerank writes a cross_encoder_score onto every record of the
caller's input list in place, including records beyond top_k that are
not in the returned list; apart from that field every record is
unchanged, and the returned list is a subset of the mutated input of
length at most top_k. -/
theorem rerank_mutates_all_candidates (ceScore : String → ℚ)
    (results : List Combined) (top_k : Nat) :
    (rerank ceScore results top_k).1 = results.map (fun r =>
        { r with cross_encoder_score := some (ceScore r.text) }) ∧
    (∀ e ∈ (rerank ceScore results top_k).1,
      e.cross_encoder_score = some (ceScore e.text)) ∧
    (∀ e ∈ (rerank ceScore results top_k).2,
      e ∈ (rerank ceScore results top_k).1) ∧
    (rerank ceScore results top_k).2.length ≤ top_k := by
  cases results with
  | nil =>
    refine ⟨rfl, ?_, ?_, ?_⟩
    · intro e he; simp [rerank] at he
    · intro e he; simp [rerank] at he
    · simp [rerank]
  | cons r rest =>
    rw [rerank]
    refine ⟨rfl, ?_, ?_, ?_⟩
    · intro e he
      rcases List.mem_map.mp he with ⟨e0, _, rfl⟩
      rfl
    · intro e he
      exact List.mem_mergeSort.mp (List.mem_of_mem_take he)
    · exact le_trans (List.length_take_le _ _) (le_refl _)
    · exact fun h => (List.cons_ne_nil r rest h).elim

/-- Witness for C10: a two-candidate list reranked to top 1; both input
records carry a score afterwards, only one is returned. -/
theorem rerank_mutates_all_candidates_witness :
    (rerank (fun _ => (1 : ℚ) / 2)
        [⟨"a", none, none, [], 0, 0, 0, none⟩,
         ⟨"b", none, none, [], 0, 0, 0, none⟩] 1).1 =
      [⟨"a", none, none, [], 0, 0, 0, some ((1 : ℚ) / 2)⟩,
       ⟨"b", none, none, [], 0, 0, 0, some ((1 : ℚ) / 2)⟩] ∧
    ((rerank (fun _ => (1 : ℚ) / 2)
        [⟨"a", none, none, [], 0, 0, 0, none⟩,
         ⟨"b", none, none, [], 0, 0, 0, none⟩] 1).2.length ≤ 1) :=
  ⟨(rerank_mutates_all_candidates (fun _ => (1 : ℚ) / 2)
      [⟨"a", none, none, [], 0, 0, 0, none⟩,
       ⟨"b", none, none, [], 0, 0, 0, none⟩] 1).1,
   (rerank_mutates_all_candidates (fun _ => (1 : ℚ) / 2)
      [⟨"a", none, none, [], 0, 0, 0, none⟩,
       ⟨"b", none, none, [], 0, 0, 0, none⟩] 1).2.2.2⟩

lemma applyFiltersOpt_sub (combined : List Combined)
    (metadata_filters : Option (List (String × String))) :
    ∀ e ∈ applyFiltersOpt combined metadata_filters, e ∈ combined := by
  intro e he
  match metadata_filters with
  | none => exact he
  | some [] => exact he
  | some (f :: fs) => exact List.mem_of_mem_filter he

/-- C5: with an unbuilt lexical index, hybrid search succeeds (and never
consults the lexical path), returning only dense candidates with their
normalized vector score, bm25_score = 0.0 throughout, and a hybrid score
that is just the weighted normalized vector score. -/
theorem hybrid_search_dense_only_degradation
    (st : HybridState) (denseSearch : Nat → List VectorResult)
    (bm25_scores : List ℚ) (top_k : Nat)
    (keyword_weight vector_weight : ℚ)
    (metadata_filters : Option (List (String × String)))
    (hidx : st.hasIndex = false)
    (hw : ¬ keyword_weight + vector_weight = 0)
    (htext : ∀ r ∈ denseSearch (top_k * 2), r.text ≠ none) :
    ∃ out, hybrid_search st denseSearch bm25_scores top_k keyword_weight
        vector_weight metadata_filters =
        (.ok out, ⟨some (top_k * 2), none⟩) ∧
      ∀ e ∈ out, e.bm25_score = 0 ∧
        e.text ∈ (denseSearch (top_k * 2)).filterMap VectorResult.text ∧
        e.vector_score ∈
          normalizedVectorScores (denseSearch (top_k * 2)) ∧
        e.hybrid_score = e.vector_score *
          (vector_weight / (keyword_weight + vector_weight)) := by
  have hbm : bm25Retrieve st bm25_scores top_k = [] := by
    rw [bm25Retrieve, hidx]
    rfl
  obtain ⟨d1, hd1⟩ := av_ok ((denseSearch (top_k * 2)).zip
      (normalizedVectorScores (denseSearch (top_k * 2)))) []
    (fun p hp => htext p.1 (List.of_mem_zip hp).1)
  have hcomb : combine_results (denseSearch (top_k * 2)) []
      (vector_weight / (keyword_weight + vector_weight))
      (keyword_weight / (keyword_weight + vector_weight)) =
      .ok (d1.map (attachHybrid
        (vector_weight / (keyword_weight + vector_weight))
        (keyword_weight / (keyword_weight + vector_weight)))) := by
    rw [combine_results, hd1]
    rfl
  refine ⟨((applyFiltersOpt (d1.map (attachHybrid
      (vector_weight / (keyword_weight + vector_weight))
      (keyword_weight / (keyword_weight + vector_weight))))
      metadata_filters).mergeSort
      (fun a b => decide (b.hybrid_score ≤ a.hybrid_score))).take top_k,
    ?_, ?_⟩
  · rw [hybrid_search, if_neg hw]
    simp only [hbm, hcomb, hidx]
    rfl
  · intro e he
    have he2 : e ∈ d1.map (attachHybrid
        (vector_weight / (keyword_weight + vector_weight))
        (keyword_weight / (keyword_weight + vector_weight))) :=
      applyFiltersOpt_sub _ _ e
        (List.mem_mergeSort.mp (List.mem_of_mem_take he))
    rcases List.mem_map.mp he2 with ⟨e2, he2', rfl⟩
    rcases av_sub _ [] d1 hd1 e2 he2' with
      h0 | ⟨p, hp, hpt, -, -, -, hv, hbm0⟩
    · exact absurd h0 (List.not_mem_nil e2)
    · refine ⟨hbm0, ?_, ?_, ?_⟩
      · exact List.mem_filterMap.mpr ⟨p.1, (List.of_mem_zip hp).1, hpt⟩
      · show e2.vector_score ∈ _
        rw [hv]
        exact (List.of_mem_zip hp).2
      · show e2.vector_score *
            (vector_weight / (keyword_weight + vector_weight)) +
            e2.bm25_score *
            (keyword_weight / (keyword_weight + vector_weight)) = _
        rw [hbm0, zero_mul, add_zero]
        rfl

/-- Witness for C5: a concrete unbuilt-index state with one dense hit. -/
theorem hybrid_search_dense_only_degradation_witness :
    (⟨false, [], []⟩ : HybridState).hasIndex = false ∧
    ¬ ((0 : ℚ) + 1 = 0) ∧
    ∃ out, hybrid_search ⟨false, [], []⟩
        (fun _ => [⟨some "c", some "d", some "t", 1, []⟩]) [] 5 0 1
        none = (.ok out, ⟨some (5 * 2), none⟩) ∧
      ∀ e ∈ out, e.bm25_score = 0 ∧
        e.text ∈ [⟨some "c", some "d", some "t", 1,
          ([] : List (String × String))⟩].filterMap VectorResult.text ∧
        e.vector_score ∈ normalizedVectorScores
          [⟨some "c", some "d", some "t", 1, []⟩] ∧
        e.hybrid_score = e.vector_score * ((1 : ℚ) / ((0 : ℚ) + 1)) :=
  ⟨rfl, by norm_num,
   hybrid_search_dense_only_degradation ⟨false, [], []⟩
     (fun _ => [⟨some "c", some "d", some "t", 1, []⟩]) [] 5 0 1 none
     rfl (by norm_num)
     (by intro r hr; rcases List.mem_singleton.mp hr with rfl; simp)⟩

lemma hybrid_search_trace (st : HybridState)
    (denseSearch : Nat → List VectorResult) (bm25_scores : List ℚ)
    (top_k : Nat) (keyword_weight vector_weight : ℚ)
    (metadata_filters : Option (List (String × String)))
    (hw : ¬ keyword_weight + vector_weight = 0) :
    (hybrid_search st denseSearch bm25_scores top_k keyword_weight
        vector_weight metadata_filters).2 =
      ⟨some (top_k * 2),
       if st.hasIndex then some (top_k * 2) else none⟩ := by
  rw [hybrid_search, if_neg hw]
  cases hcomb : combine_results (denseSearch (top_k * 2))
      (bm25Retrieve st bm25_scores top_k)
      (vector_weight / (keyword_weight + vector_weight))
      (keyword_weight / (keyword_weight + vector_weight)) with
  | error e =>
    simp only [hcomb]
  | ok combined =>
    simp only [hcomb]

lemma reranked_search_trace (st : HybridState)
    (denseSearch : Nat → List VectorResult) (bm25_scores : List ℚ)
    (ceScore : String → ℚ) (req : RerankedRequest) :
    (reranked_search st denseSearch bm25_scores ceScore req).2 =
      (hybrid_search st denseSearch bm25_scores
        (req.top_k * req.candidates_multiplier) req.keyword_weight
        req.vector_weight req.metadata_filters).2 := by
  rw [reranked_search]
  split
  next x e tr heq => rw [heq]
  next x results tr heq =>
    rw [heq]
    split <;> rfl

/-- Counterexample for C1 as stated: with top_k = 10 and
candidates_multiplier = 3 the dense path is asked for 60 candidates, not
num_candidates = 30. -/
theorem reranked_search_candidates_cex :
    (reranked_search ⟨true, ["doc"], [[]]⟩ (fun _ => []) [] (fun _ => 1)
        ⟨10, 3, 3 / 10, 7 / 10, true, none⟩).2.dense_requested =
      some 60 ∧
    (some 60 : Option Nat) ≠ some (10 * 3) := by
  constructor
  · norm_num [reranked_search, hybrid_search, bm25Retrieve,
      combine_results, addVectorResults, addBm25Results,
      normalizedVectorScores, normalizedBm25Scores, applyFiltersOpt,
      rerank]
  · simp

/-- C1 (amended): the orchestrator computes num_candidates =
top_k * candidates_multiplier, but each retrieval path is then asked for
2 * num_candidates candidates before the merge (hybrid_search doubles the
count it receives); with multiplier 3 and top_k 10, 60 candidates are
requested from each path. -/
theorem reranked_search_requests_double_candidates (st : HybridState)
    (denseSearch : Nat → List VectorResult) (bm25_scores : List ℚ)
    (ceScore : String → ℚ) (req : RerankedRequest)
    (hw : ¬ req.keyword_weight + req.vector_weight = 0) :
    (reranked_search st denseSearch bm25_scores ceScore req).2 =
      ⟨some (req.top_k * req.candidates_multiplier * 2),
       if st.hasIndex then
         some (req.top_k * req.candidates_multiplier * 2)
       else none⟩ := by
  rw [reranked_search_trace, hybrid_search_trace _ _ _ _ _ _ _ hw]

/-- Witness for C1 (amended) at top_k = 10, multiplier = 3 with a built
index: both paths are asked for 60 candidates. -/
theorem reranked_search_requests_double_candidates_witness :
    ¬ ((3 : ℚ) / 10 + 7 / 10 = 0) ∧
    (reranked_search ⟨true, ["doc"], [[]]⟩ (fun _ => []) [] (fun _ => 1)
        ⟨10, 3, 3 / 10, 7 / 10, true, none⟩).2 =
      ⟨some (10 * 3 * 2),
       if (⟨true, ["doc"], [[]]⟩ : HybridState).hasIndex then
         some (10 * 3 * 2)
       else none⟩ :=
  ⟨by norm_num,
   reranked_search_requests_double_candidates ⟨true, ["doc"], [[]]⟩
     (fun _ => []) [] (fun _ => 1) ⟨10, 3, 3 / 10, 7 / 10, true, none⟩
     (by norm_num)⟩

/-- The number of candidates that survive the merge and the metadata
filtering inside a hybrid search call that was asked for `top_k`
results, before the final sort-and-truncate. -/
def survivingCandidates (st : HybridState)
    (denseSearch : Nat → List VectorResult) (bm25_scores : List ℚ)
    (top_k : Nat) (keyword_weight vector_weight : ℚ)
    (metadata_filters : Option (List (String × String))) : Nat :=
  match combine_results (denseSearch (top_k * 2))
      (bm25Retrieve st bm25_scores top_k)
      (vector_weight / (keyword_weight + vector_weight))
      (keyword_weight / (keyword_weight + vector_weight)) with
  | .error _ => 0
  | .ok combined => (applyFiltersOpt combined metadata_filters).length

lemma hybrid_search_ok_length (st : HybridState)
    (denseSearch : Nat → List VectorResult) (bm25_scores : List ℚ)
    (top_k : Nat) (keyword_weight vector_weight : ℚ)
    (metadata_filters : Option (List (String × String)))
    (out : List Combined) (tr : SearchCall)
    (h : hybrid_search st denseSearch bm25_scores top_k keyword_weight
      vector_weight metadata_filters = (.ok out, tr)) :
    out.length = min top_k (survivingCandidates st denseSearch
      bm25_scores top_k keyword_weight vector_weight metadata_filters)
    := by
  by_cases hw : keyword_weight + vector_weight = 0
  · rw [hybrid_search, if_pos hw] at h
    have hfst := congrArg Prod.fst h
    simp at hfst
  · rw [hybrid_search, if_neg hw] at h
    rw [survivingCandidates]
    cases hcomb : combine_results (denseSearch (top_k * 2))
        (bm25Retrieve st bm25_scores top_k)
        (vector_weight / (keyword_weight + vector_weight))
        (keyword_weight / (keyword_weight + vector_weight)) with
    | error e =>
      simp only [hcomb] at h
      have hfst := congrArg Prod.fst h
      simp at hfst
    | ok combined =>
      simp only [hcomb] at h
      have hfst := congrArg Prod.fst h
      simp only [Except.ok.injEq] at hfst
      rw [← hfst, List.length_take, List.length_mergeSort]

lemma rerank_snd_length (ceScore : String → ℚ)
    (results : List Combined) (top_k : Nat) :
    (rerank ceScore results top_k).2.length = min top_k results.length
    := by
  cases results with
  | nil => simp [rerank]
  | cons r rest =>
    rw [rerank]
    · simp [List.length_take, List.length_mergeSort]
    · exact fun h2 => (List.cons_ne_nil r rest h2).elim

/-- C8: on every successful call, the final output length is the minimum
of the requested top_k and the number of candidates that survived the
merge and the filtering, with or without reranking. -/
theorem reranked_search_topk_contract (st : HybridState)
    (denseSearch : Nat → List VectorResult) (bm25_scores : List ℚ)
    (ceScore : String → ℚ) (req : RerankedRequest)
    (out : List Combined) (tr : SearchCall)
    (hm : 1 ≤ req.candidates_multiplier)
    (h : reranked_search st denseSearch bm25_scores ceScore req =
      (.ok out, tr)) :
    out.length = min req.top_k (survivingCandidates st denseSearch
      bm25_scores (req.top_k * req.candidates_multiplier)
      req.keyword_weight req.vector_weight req.metadata_filters) := by
  rw [reranked_search] at h
  have hknc : req.top_k ≤ req.top_k * req.candidates_multiplier :=
    Nat.le_mul_of_pos_right _ hm
  split at h
  next x e tr0 heq =>
    have hfst := congrArg Prod.fst h
    simp at hfst
  next x results tr0 heq =>
    have hlen := hybrid_search_ok_length _ _ _ _ _ _ _ _ _ heq
    split at h
    next hcond =>
      have hfst := congrArg Prod.fst h
      simp only [Except.ok.injEq] at hfst
      rw [← hfst, rerank_snd_length, hlen, ← min_assoc,
        min_eq_left hknc]
    next hcond =>
      have hfst := congrArg Prod.fst h
      simp only [Except.ok.injEq] at hfst
      rw [← hfst, List.length_take, hlen, ← min_assoc,
        min_eq_left hknc]

/-- Witness for C8 at a concrete call without reranking: one candidate
survives, top_k is 1, the output has length 1. -/
theorem reranked_search_topk_contract_witness :
    (1 ≤ 2) ∧
    reranked_search ⟨false, [], []⟩
        (fun _ => [⟨some "c", some "d", some "t", 1, []⟩]) []
        (fun _ => 1) ⟨1, 2, 0, 1, false, none⟩ =
      (.ok [⟨"t", some "c", some "d", [], 1, 0, 1, none⟩],
       ⟨some 4, none⟩) ∧
    ([(⟨"t", some "c", some "d", [], 1, 0, 1, none⟩ : Combined)]).length
      = min 1 (survivingCandidates ⟨false, [], []⟩
        (fun _ => [⟨some "c", some "d", some "t", 1, []⟩]) [] (1 * 2)
        0 1 none) := by
  have hEq : reranked_search ⟨false, [], []⟩
      (fun _ => [⟨some "c", some "d", some "t", 1, []⟩]) []
      (fun _ => 1) ⟨1, 2, 0, 1, false, none⟩ =
      (.ok [⟨"t", some "c", some "d", [], 1, 0, 1, none⟩],
       ⟨some 4, none⟩) := by
    norm_num [reranked_search, hybrid_search, bm25Retrieve,
      combine_results, addVectorResults, addBm25Results,
      normalizedVectorScores, normalizedBm25Scores, applyFiltersOpt,
      dictContains, attachHybrid, rerank]
  exact ⟨by norm_num, hEq,
    reranked_search_topk_contract ⟨false, [], []⟩
      (fun _ => [⟨some "c", some "d", some "t", 1, []⟩]) []
      (fun _ => 1) ⟨1, 2, 0, 1, false, none⟩
      [⟨"t", some "c", some "d", [], 1, 0, 1, none⟩] ⟨some 4, none⟩
      (by norm_num) hEq⟩

/-- Witness for C2 at a concrete merge: text A is dense-only, B occurs
in both lists, C is lexical-only; A appears exactly once and the
lexical-only candidate C has vector_score 0. -/
theorem combine_results_merge_completeness_witness :
    combine_results
        [⟨some "c1", some "d1", some "A", 2, []⟩,
         ⟨some "c2", some "d2", some "B", 1, []⟩]
        [⟨"B", [], 3⟩, ⟨"C", [("document_id", "dX")], 1⟩] 1 0 =
      .ok [⟨"A", some "c1", some "d1", [], 1, 0, 1, none⟩,
           ⟨"B", some "c2", some "d2", [], 0, 1, 0, none⟩,
           ⟨"C", none, some "dX", [("document_id", "dX")], 0, 1 / 3, 0,
            none⟩] ∧
    (([⟨"A", some "c1", some "d1", [], 1, 0, 1, none⟩,
       ⟨"B", some "c2", some "d2", [], 0, 1, 0, none⟩,
       ⟨"C", none, some "dX", [("document_id", "dX")], 0, 1 / 3, 0,
        none⟩] : List Combined).map Combined.text).count "A" = 1 := by
  have hEq : combine_results
      [⟨some "c1", some "d1", some "A", 2, []⟩,
       ⟨some "c2", some "d2", some "B", 1, []⟩]
      [⟨"B", [], 3⟩, ⟨"C", [("document_id", "dX")], 1⟩] 1 0 =
      .ok [⟨"A", some "c1", some "d1", [], 1, 0, 1, none⟩,
           ⟨"B", some "c2", some "d2", [], 0, 1, 0, none⟩,
           ⟨"C", none, some "dX", [("document_id", "dX")], 0, 1 / 3, 0,
            none⟩] := by
    simp [combine_results, normalizedVectorScores,
      normalizedBm25Scores, addVectorResults, addBm25Results,
      dictContains, dictSetBm25, metaLookup, attachHybrid]
    norm_num
  refine ⟨hEq, ?_⟩
  refine ((combine_results_merge_completeness
    [⟨some "c1", some "d1", some "A", 2, []⟩,
     ⟨some "c2", some "d2", some "B", 1, []⟩]
    [⟨"B", [], 3⟩, ⟨"C", [("document_id", "dX")], 1⟩] 1 0 _ hEq).1
    "A").mp ?_
  left
  simp [List.mem_filterMap]
